import Mathlib

/-!
Verification development for the conversation-memory skill scripts.

Shallow embedding of the management scripts (`save_memory.js`,
`update_index.js`, `activate_memory.js`, `archive_old_memories.js`,
`paths.js`).  Text is represented as `List Char` ("`Str`"), documents as
lists of lines, and the memory store as two lists of record directories
(the `active` and `archive` partitions).  JavaScript regular-expression
matching against the fixed label patterns of the scripts is embedded as
explicit first-occurrence substring search (`firstSplit`); `\s*` in the
label patterns is absorbed by trimming, which yields the same captured
field up to `trim` for in-line matches (the scripts' patterns are only
exercised on single-line fields).  JS `Array.prototype.sort` (stable in
Node 18) is embedded as the stable `List.insertionSort`.  `Date.now()`
is modelled as a single `now : Int` millisecond timestamp, and the
floating-point day computation `(now - mtime) / 86400000` as the exact
rational `daysSince`.
-/

/-- Text as a list of characters (JS strings, UTF-16 astral corner cases
aside, behave like sequences of code points for the operations used here). -/
abbrev Str := List Char

/-- Split a string at the first occurrence of `pat`, returning the part
before the occurrence and the part after it.  `none` when `pat` does not
occur.  This is the primitive behind the embedding of `String.prototype`
searches (`includes`, `match` of a literal label, `replace`). -/
def firstSplit (pat : Str) : Str → Option (Str × Str)
  | [] => none
  | c :: cs =>
    if pat.isPrefixOf (c :: cs) then some ([], (c :: cs).drop pat.length)
    else
      match firstSplit pat cs with
      | some (p, s) => some (c :: p, s)
      | none => none

/-- `pat` occurs somewhere in `l` as a contiguous substring. -/
def occursIn (pat l : Str) : Prop := ∃ p t, l = p ++ pat ++ t

/-- JS `s.includes(pat)`: the empty pattern is contained in every string. -/
def jsIncludes (s pat : Str) : Bool := pat.isEmpty || (firstSplit pat s).isSome

/-- JS `String.prototype.trim` (whitespace set restricted to the ASCII
whitespace the documents use). -/
def trimChars (l : Str) : Str :=
  ((l.dropWhile Char.isWhitespace).reverse.dropWhile Char.isWhitespace).reverse

/-- JS `String.prototype.toLowerCase` (ASCII-faithful). -/
def lowerChars (l : Str) : Str := l.map Char.toLower

/-- JS `String.prototype.split` on a character class: split at every
separator character, keeping empty segments (`"a,,b" → ["a","","b"]`,
`"" → [""]`). -/
def splitPred (p : Char → Bool) : Str → List Str
  | [] => [[]]
  | c :: cs =>
    if p c then [] :: splitPred p cs
    else
      match splitPred p cs with
      | t :: ts => (c :: t) :: ts
      | [] => [[c]]

/-- JS `s.split(' ')[0]`: everything before the first space (on already
trimmed input, as the scripts use it). -/
def firstWord (s : Str) : Str := s.takeWhile (fun c => c ≠ ' ')

/-! ## Metadata extraction

`update_index.js` (`extractMemoryInfo`) recognises English and Chinese
label variants; `activate_memory.js` and `archive_old_memories.js` share
an identical `getMemoryInfo` that recognises only the Chinese variants. -/

/-- Unanchored label pattern (`/\*\*Label\*\*：(.+)$/m`): first occurrence
of the label anywhere in the line, requiring a nonempty rest-of-line,
captured group trimmed. -/
def afterLabel (label : Str) (line : Str) : Option Str :=
  match firstSplit label line with
  | some (_, suffix) => if suffix = [] then none else some (trimChars suffix)
  | none => none

/-- Line-anchored label pattern (`/^# Label：(.+)$/m`): the line must start
with the label and have a nonempty rest, captured group trimmed. -/
def anchoredAfter (label : Str) (line : Str) : Option Str :=
  if label.isPrefixOf line then
    let suffix := line.drop label.length
    if suffix = [] then none else some (trimChars suffix)
  else none

/-- First line of the document on which the field pattern matches
(`String.prototype.match` with the `/m` flag scans top to bottom). -/
def findField (f : Str → Option Str) (lines : List Str) : Option Str :=
  lines.findSome? f

def enTitleLabel : Str := "# Conversation Memory:".data

def zhTitleLabel : Str := "# 对话记忆：".data

def enKeywordsLabel : Str := "**Keywords**:".data

def zhKeywordsLabel : Str := "**关键词**：".data

def enTimeLabel : Str := "**Time**:".data

def zhTimeLabel : Str := "**时间**：".data

structure MemInfo where
  topic : Str
  keywords : Str
  time : Str
deriving DecidableEq

structure BasicInfo where
  topic : Str
  keywords : Str
deriving DecidableEq

/-- `extractMemoryInfo` of `update_index.js` (lines 26-68): English pattern
first, Chinese second, documented defaults when neither matches. -/
def extractMemoryInfo (lines : List Str) : MemInfo :=
  let topic :=
    match findField (anchoredAfter enTitleLabel) lines with
    | some t => t
    | none =>
      match findField (anchoredAfter zhTitleLabel) lines with
      | some t => t
      | none => "Unknown Topic".data
  let keywords :=
    match findField (afterLabel enKeywordsLabel) lines with
    | some k => k
    | none =>
      match findField (afterLabel zhKeywordsLabel) lines with
      | some k => k
      | none => []
  let time :=
    match findField (afterLabel enTimeLabel) lines with
    | some t => firstWord t
    | none =>
      match findField (afterLabel zhTimeLabel) lines with
      | some t => firstWord t
      | none => []
  ⟨topic, keywords, time⟩

/-- `getMemoryInfo` of `activate_memory.js` (lines 40-58) and
`archive_old_memories.js` (lines 40-58), which are identical: only the
Chinese label variants are recognised, the title defaults to `未知主题`,
and no time field is extracted. -/
def getMemoryInfo (lines : List Str) : BasicInfo :=
  let topic :=
    match findField (anchoredAfter zhTitleLabel) lines with
    | some t => t
    | none => "未知主题".data
  let keywords :=
    match findField (afterLabel zhKeywordsLabel) lines with
    | some k => k
    | none => []
  ⟨topic, keywords⟩

/-- Modelled from the spec: a field extractor given as an ordered list of
label rules, first match winning, with a default.  Used to compare the
branching code of `extractMemoryInfo` against the spec's description of
"two language variants ... tried in a fixed preference order". -/
def fieldByRules (rules : List (Str → Option Str)) (dflt : Str) (lines : List Str) : Str :=
  match rules.findSome? (fun r => findField r lines) with
  | some v => v
  | none => dflt

/-- Modelled from the spec: the Metadata Extractor as an ordered-rule
table, English variant preferred, with the documented defaults. -/
def specExtractMemoryInfo (lines : List Str) : MemInfo :=
  { topic := fieldByRules [anchoredAfter enTitleLabel, anchoredAfter zhTitleLabel] ("Unknown Topic".data) lines
    keywords := fieldByRules [afterLabel enKeywordsLabel, afterLabel zhKeywordsLabel] [] lines
    time := firstWord (fieldByRules [afterLabel enTimeLabel, afterLabel zhTimeLabel] [] lines) }

/-- The Chinese-only extractor as an ordered-rule table with a single rule
per field (what `getMemoryInfo` actually implements). -/
def specZhOnlyInfo (lines : List Str) : BasicInfo :=
  { topic := fieldByRules [anchoredAfter zhTitleLabel] ("未知主题".data) lines
    keywords := fieldByRules [afterLabel zhKeywordsLabel] [] lines }

/-! ## Records and the store -/

/-- One record directory: its directory name, its filesystem mtime in
epoch milliseconds, and the contents of its two documents (`none` models
a missing file). -/
structure Rec where
  name : Str
  mtime : Int
  summary : Option (List Str)
  conversation : Option Str
deriving DecidableEq

/-- The two partitions (`memories/active/` and `memories/archive/`). -/
structure Store where
  active : List Rec
  archive : List Rec
deriving DecidableEq

def recNames (rs : List Rec) : List Str := rs.map (·.name)

/-- The spec invariant: a record name is unique across both partitions
combined. -/
def crossUnique (s : Store) : Prop := (recNames (s.active ++ s.archive)).Nodup

/-- Directory enumeration filter used by every script:
`fs.readdirSync(dir).filter(name => name.startsWith('mem-'))`. -/
def memFilter (rs : List Rec) : List Rec :=
  rs.filter (fun r => "mem-".data.isPrefixOf r.name)

/-- The full record-name pattern `/^mem-\d{8}-\d{6}$/` that
`save_memory.js` (line 234) merely warns about. -/
def memNamePattern : Str → Bool
  | 'm' :: 'e' :: 'm' :: '-' :: rest =>
    let date := rest.take 8
    let rest2 := rest.drop 8
    match rest2 with
    | '-' :: time => date.length == 8 && date.all Char.isDigit && time.length == 6 && time.all Char.isDigit
    | _ => false
  | _ => false

/-! ## createMemory (`save_memory.js`) -/

inductive MemError where
  | duplicate
deriving DecidableEq

/-- The `summary.md` template written by `generateSummaryTemplate`
(local-time formatting of `now` is modelled by the caller-supplied
`nowStr`).  Only the structurally relevant lines are listed; unfilled
template markers are the literal brace-delimited placeholders. -/
def summaryTemplateLines (nowStr : Str) : List Str :=
  [ "# 对话记忆：\x7b主题标题\x7d".data
  , [] , "## 元信息".data , []
  , "- **时间**：".data ++ nowStr
  , "- **持续**：约 \x7bN\x7d 分钟".data
  , "- **对话轮次**：\x7bN\x7d 轮".data
  , "- **关键词**：\x7b关键词1\x7d, \x7b关键词2\x7d, \x7b关键词3\x7d".data
  , [] , "## 主题摘要".data ]

/-- The `conversation.md` template written by
`generateConversationTemplate` (flattened to one string, as it is only
ever searched as full text). -/
def conversationTemplate (nowStr : Str) : Str :=
  "# 原始对话记录\n\n## 对话信息\n\n- **开始时间**：".data ++ nowStr ++
    "\n- **结束时间**：\x7bYYYY-MM-DD HH:MM:SS\x7d\n".data

/-- `createMemory` of `save_memory.js` (lines 142-174): the existence
check consults only the active partition, then the directory and the two
template documents are created. -/
def createMemory (name : Str) (now : Int) (nowStr : Str) (s : Store) : Except MemError Store :=
  if s.active.any (fun m => m.name == name) then .error .duplicate
  else .ok { s with active := s.active ++ [⟨name, now, some (summaryTemplateLines nowStr), some (conversationTemplate nowStr)⟩] }

/-! ## Archival policy engine (`archive_old_memories.js`) -/

def msPerDay : Int := 1000 * 60 * 60 * 24

/-- `daysSinceModified = (Date.now() - stat.mtime.getTime()) / (1000*60*60*24)`,
as an exact rational. -/
def daysSince (now mtime : Int) : ℚ := ((now - mtime : Int) : ℚ) / (msPerDay : ℚ)

structure Config where
  maxActiveMemories : Nat
  archiveAfterDays : Nat

/-- `paths.js` `getConfig()` (lines 434-445). -/
def defaultConfig : Config := ⟨20, 14⟩

def mtimeLe (a b : Rec) : Prop := a.mtime ≤ b.mtime

instance : DecidableRel mtimeLe := fun a b => inferInstanceAs (Decidable (a.mtime ≤ b.mtime))

instance : IsTotal Rec mtimeLe := ⟨fun a b => Int.le_total a.mtime b.mtime⟩

instance : IsTrans Rec mtimeLe := ⟨fun _ _ _ hab hbc => Int.le_trans hab hbc⟩

/-- `getActiveMemories` of `archive_old_memories.js` (lines 63-88):
enumerate the active partition, keep `mem-`-prefixed names, sort
ascending by mtime (oldest first; stable, as Node's sort is). -/
def getActiveMemoriesArc (recs : List Rec) : List Rec :=
  List.insertionSort mtimeLe (memFilter recs)

inductive Reason where
  | age
  | capacity
  | forced
deriving DecidableEq

/-- An archival candidate; `reason` abstracts the human-readable reason
strings `超过 N 天未修改` / `活跃记忆超过 N 个限制` / `强制归档`. -/
structure Cand where
  mem : Rec
  reason : Reason
deriving DecidableEq

/-- `getMemoriesToArchive` of `archive_old_memories.js` (lines 107-140).
Rule 1 collects every record over the age threshold; rule 2 operates on
the remainder, taking the oldest `excess` records (or exactly one when
`force` is set), skipping names already collected. -/
def getMemoriesToArchive (cfg : Config) (now : Int) (force : Bool) (activeRecs : List Rec) : List Cand :=
  let memories := getActiveMemoriesArc activeRecs
  let toArchive1 := (memories.filter (fun m => decide ((cfg.archiveAfterDays : ℚ) < daysSince now m.mtime))).map (fun m => ⟨m, .age⟩)
  let remaining := memories.filter (fun m => !(toArchive1.any (fun a => a.mem.name == m.name)))
  if cfg.maxActiveMemories < remaining.length ∨ force = true then
    let excess : Int := (remaining.length : Int) - (cfg.maxActiveMemories : Int)
    if 0 < excess ∨ force = true then
      let cnt : Nat := if force then 1 else excess.toNat
      (remaining.take cnt).foldl
        (fun acc m =>
          if acc.any (fun a => a.mem.name == m.name) then acc
          else acc ++ [⟨m, if force then .forced else .capacity⟩]) toArchive1
    else toArchive1
  else toArchive1

/-- Net effect on the two partitions of `runArchive(dryRun=false)`
(lines 202-234): every candidate is moved (`fs.renameSync`) from active
to archive, then the index is rebuilt once. -/
def runArchiveApply (cfg : Config) (now : Int) (force : Bool) (s : Store) : Store :=
  let toArchive := getMemoriesToArchive cfg now force s.active
  { active := s.active.filter (fun m => !(toArchive.any (fun c => c.mem.name == m.name)))
    archive := s.archive ++ toArchive.map (·.mem) }

/-! ## Reactivation (`activate_memory.js`) -/

inductive ActOutcome where
  | activated
  | alreadyActive
  | notFound
deriving DecidableEq

/-- Process exit code of `activateMemory`: `process.exit(1)` on the
not-found path, normal exit otherwise. -/
def exitCode : ActOutcome → Nat
  | .notFound => 1
  | _ => 0

/-- Whether `activateMemory` reaches its final `updateIndex()` call. -/
def triggersIndex : ActOutcome → Bool
  | .activated => true
  | _ => false

/-- `activateMemory` of `activate_memory.js` (lines 190-233): the archive
partition is checked first; if the record is there it is renamed into
active and the index is rebuilt; otherwise an already-active record is a
reported no-op, and a record in neither partition exits non-zero. -/
def activateMemory (name : Str) (s : Store) : ActOutcome × Store :=
  if s.archive.any (fun m => m.name == name) then
    (.activated,
      { active := s.active ++ s.archive.filter (fun m => m.name == name)
        archive := s.archive.filter (fun m => !(m.name == name)) })
  else if s.active.any (fun m => m.name == name) then (.alreadyActive, s)
  else (.notFound, s)

/-! ## Search (`activate_memory.js`) -/

inductive Loc where
  | active
  | archive
deriving DecidableEq

/-- One entry of `getMemories`: name, mtime, topic and keywords extracted
by the Chinese-only `getMemoryInfo` (with the `未知` fallback when
`summary.md` is missing), plus the conversation document for the
full-text check. -/
structure SearchEntry where
  name : Str
  mtime : Int
  topic : Str
  keywords : Str
  conversation : Option Str
  location : Loc
deriving DecidableEq

def toSearchEntry (loc : Loc) (r : Rec) : SearchEntry :=
  { name := r.name
    mtime := r.mtime
    topic := match r.summary with
      | some ls => (getMemoryInfo ls).topic
      | none => "未知".data
    keywords := match r.summary with
      | some ls => (getMemoryInfo ls).keywords
      | none => []
    conversation := r.conversation
    location := loc }

/-- `getMemories` of `activate_memory.js` (lines 63-86): enumerate,
extract info, sort by mtime descending. -/
def getMemories (loc : Loc) (rs : List Rec) : List SearchEntry :=
  List.insertionSort (fun a b : SearchEntry => b.mtime ≤ a.mtime)
    ((memFilter rs).map (toSearchEntry loc))

/-- The filter predicate of `searchMemories` (lines 127-149): name, then
topic, then keyword field, then conversation full text, all
case-insensitive substring checks with JS truthiness guards. -/
def matchesKeyword (kw : Str) (m : SearchEntry) : Bool :=
  jsIncludes (lowerChars m.name) (lowerChars kw) ||
  (!(m.topic == []) && jsIncludes (lowerChars m.topic) (lowerChars kw)) ||
  (!(m.keywords == []) && jsIncludes (lowerChars m.keywords) (lowerChars kw)) ||
  (match m.conversation with
    | some c => jsIncludes (lowerChars c) (lowerChars kw)
    | none => false)

def allMemories (s : Store) : List SearchEntry :=
  getMemories .active s.active ++ getMemories .archive s.archive

/-- `searchMemories` of `activate_memory.js` (lines 118-170). -/
def searchMemories (kw : Str) (s : Store) : List SearchEntry :=
  (allMemories s).filter (matchesKeyword kw)

/-! ## Index builder (`update_index.js`) -/

structure MemMeta where
  id : Str
  topic : Str
  keywords : Str
  time : Str
deriving DecidableEq

/-- Lexicographic order on code points (what `localeCompare` computes on
the ASCII record ids). -/
def strLe : Str → Str → Bool
  | [], _ => true
  | _ :: _, [] => false
  | a :: as, b :: bs => if a < b then true else if b < a then false else strLe as bs

/-- `getActiveMemories` of `update_index.js` (lines 73-99): enumerate
`mem-`-prefixed directories, skip those whose `summary.md` is missing
(`extractMemoryInfo` returns null), sort by id descending. -/
def getActiveMemoriesIdx (recs : List Rec) : List MemMeta :=
  let collected := (memFilter recs).filterMap
    (fun r => r.summary.map (fun ls =>
      let i := extractMemoryInfo ls
      ⟨r.name, i.topic, i.keywords, i.time⟩))
  List.insertionSort (fun a b : MemMeta => strLe b.id a.id = true) collected

/-- The template placeholders filtered out by `collectAllKeywords`
(lines 133-136). -/
def placeholders : List Str :=
  [ "\x7bkeyword1\x7d".data, "\x7bkeyword2\x7d".data, "\x7bkeyword3\x7d".data
  , "\x7b关键词1\x7d".data, "\x7b关键词2\x7d".data, "\x7b关键词3\x7d".data ]

def isKeywordSep (c : Char) : Bool := c == ',' || c == '，'

/-- `collectAllKeywords` of `update_index.js` (lines 129-150): split each
record's keyword field on ASCII and full-width commas, trim, drop empty
and placeholder tokens, and collect into a `Set` (first-seen insertion
order). -/
def collectAllKeywords (mems : List MemMeta) : List Str :=
  mems.foldl
    (fun ks mem =>
      if mem.keywords = [] then ks
      else
        ((splitPred isKeywordSep mem.keywords).map trimChars).foldl
          (fun ks k =>
            if k ≠ [] ∧ k ∉ placeholders then
              (if k ∈ ks then ks else ks ++ [k])
            else ks) ks) []

/-- Keyword-cell truncation of `generateIndexTable` (lines 117-119). -/
def truncKeywords (k : Str) : Str :=
  if 30 < k.length then k.take 30 ++ "...".data else k

def newline : Str := ['\n']

/-- `generateIndexTable` (lines 104-124). -/
def generateIndexTable (mems : List MemMeta) : Str :=
  if mems.length = 0 then
    "| Memory ID | Topic | Keywords | Date |\n|-----------|-------|----------|------|\n| (No active memories) | - | - | - |".data
  else
    trimChars
      (("| Memory ID | Topic | Keywords | Date |\n|-----------|-------|----------|------|\n".data) ++
        mems.foldl
          (fun acc mem =>
            acc ++ "| ".data ++ mem.id ++ " | ".data ++ mem.topic ++ " | ".data ++
              truncKeywords mem.keywords ++ " | ".data ++ mem.time ++ " |".data ++ newline) [])

/-- The keyword summary string of `updateIndexFile` (lines 158-160). -/
def indexKwStr (mems : List MemMeta) : Str :=
  let allKeywords := collectAllKeywords mems
  if 0 < allKeywords.length then List.intercalate (", ".data) allKeywords
  else "(No valid keywords yet)".data

/-- The full `memories/index.md` contents written by `updateIndexFile`
(lines 155-186). -/
def renderIndexContent (mems : List MemMeta) : Str :=
  "# Active Memory Index\n\n> This file is automatically updated by scripts, recording summary info of all active memories.\n\n## Index Table\n\n<!-- INDEX_START -->\n".data ++
  generateIndexTable mems ++
  "\n<!-- INDEX_END -->\n\n## Keywords Summary\n\n<!-- KEYWORDS_START -->\n".data ++
  indexKwStr mems ++
  "\n<!-- KEYWORDS_END -->\n\n## Usage\n\n1. Find relevant memory from the index table\n2. Read `active/\x7bmemory-id\x7d/summary.md` for details\n3. For raw conversation, read `active/\x7bmemory-id\x7d/conversation.md`\n".data

/-- The truncated keyword string spliced into `SKILL.md`
(`updateSkillFile`, lines 200-203). -/
def skillKwStr (mems : List MemMeta) : Str :=
  let allKeywords := collectAllKeywords mems
  if 0 < allKeywords.length then List.intercalate (", ".data) (allKeywords.take 15)
  else "(no active memories)".data

def enSkillLabel : Str := "Active memory keywords:".data

def zhSkillLabel : Str := "活跃记忆关键词：".data

/-- The replacement text for both patterns of `updateSkillFile`. -/
def skillRepl (mems : List MemMeta) : Str := enSkillLabel ++ (' ' :: skillKwStr mems)

/-- One `String.prototype.replace(/Label.+/, repl)` step restricted to a
single line: replace from the first occurrence of the label through the
end of the line, requiring a nonempty rest of line (the `.+` of the
pattern); `none` when the pattern does not match this line. -/
def lineReplace (label repl : Str) (l : Str) : Option Str :=
  match firstSplit label l with
  | some (p, suffix) => if suffix = [] then none else some (p ++ repl)
  | none => none

/-- Non-global `replace` over a document given as lines: only the first
matching line is rewritten. -/
def replaceFirstLine (label repl : Str) : List Str → List Str
  | [] => []
  | l :: ls =>
    match lineReplace label repl l with
    | some l2 => l2 :: ls
    | none => l :: replaceFirstLine label repl ls

/-- `updateSkillFile` (lines 191-216): English pattern replaced first,
then the Chinese pattern, both with the English replacement line. -/
def updateSkillLines (mems : List MemMeta) (lines : List Str) : List Str :=
  let repl := skillRepl mems
  replaceFirstLine zhSkillLabel repl (replaceFirstLine enSkillLabel repl lines)

/-- The state touched by one `update_index.js` run: the active records,
the `index.md` contents and the `SKILL.md` lines. -/
structure BuilderState where
  recs : List Rec
  indexContent : Str
  skillLines : List Str
deriving DecidableEq

/-- `main` of `update_index.js` (lines 221-251): reads the active
records, rewrites `index.md` wholesale and patches `SKILL.md`. -/
def runBuilder (s : BuilderState) : BuilderState :=
  let mems := getActiveMemoriesIdx s.recs
  { recs := s.recs
    indexContent := renderIndexContent mems
    skillLines := updateSkillLines mems s.skillLines }

/-! ## String-matching lemmas for `firstSplit` -/

theorem firstSplit_eq_append {pat : Str} : ∀ {l p t : Str}, firstSplit pat l = some (p, t) → l = p ++ pat ++ t := by
  intro l
  induction l with
  | nil => intro p t h; simp [firstSplit] at h
  | cons c cs ih =>
    intro p t h
    by_cases hp : pat.isPrefixOf (c :: cs)
    · rw [firstSplit, if_pos hp] at h
      obtain ⟨rfl, rfl⟩ := Prod.mk.injEq .. ▸ Option.some.inj h
      obtain ⟨r, hr⟩ := List.isPrefixOf_iff_prefix.mp hp
      conv_lhs => rw [← hr]
      rw [← hr, List.nil_append, List.drop_left]
    · rw [firstSplit, if_neg hp] at h
      cases h2 : firstSplit pat cs with
      | none => rw [h2] at h; simp at h
      | some pr =>
        obtain ⟨p', s⟩ := pr
        rw [h2] at h
        obtain ⟨rfl, rfl⟩ := Prod.mk.injEq .. ▸ Option.some.inj h
        have := ih h2
        simp [this]

theorem firstSplit_none_not_occurs {pat : Str} (hne : pat ≠ []) :
    ∀ {l : Str}, firstSplit pat l = none → ¬ occursIn pat l := by
  intro l
  induction l with
  | nil =>
    intro _ hc
    obtain ⟨p, t, hpt⟩ := hc
    have : p = [] ∧ (pat ++ t) = [] := by simpa using hpt.symm
    exact hne (List.append_eq_nil.mp this.2).1
  | cons c cs ih =>
    intro h hc
    by_cases hp : pat.isPrefixOf (c :: cs)
    · rw [firstSplit, if_pos hp] at h; simp at h
    · rw [firstSplit, if_neg hp] at h
      cases h2 : firstSplit pat cs with
      | some pr => rw [h2] at h; obtain ⟨p', s⟩ := pr; simp at h
      | none =>
        obtain ⟨p, t, hpt⟩ := hc
        cases p with
        | nil =>
          apply hp
          rw [List.isPrefixOf_iff_prefix]
          exact ⟨t, by simpa using hpt.symm⟩
        | cons d p' =>
          have hd : d = c ∧ cs = p' ++ pat ++ t := by
            constructor
            · have := congrArg (List.headD · ' ') hpt
              simpa using this.symm
            · have := congrArg List.tail hpt
              simpa using this
          exact ih h2 ⟨p', t, hd.2⟩

theorem occurs_of_firstSplit {pat l p t : Str} (h : firstSplit pat l = some (p, t)) :
    occursIn pat l := ⟨p, t, firstSplit_eq_append h⟩

theorem firstSplit_isSome_of_occurs {pat : Str} (hne : pat ≠ []) {l : Str} (h : occursIn pat l) :
    ∃ p t, firstSplit pat l = some (p, t) := by
  cases h2 : firstSplit pat l with
  | none => exact absurd h (firstSplit_none_not_occurs hne h2)
  | some pr => exact ⟨pr.1, pr.2, by simp [h2]⟩

theorem firstSplit_minimal {pat : Str} : ∀ {l p t : Str}, firstSplit pat l = some (p, t) →
    ∀ p₂ t₂, l = p₂ ++ pat ++ t₂ → p.length ≤ p₂.length := by
  intro l
  induction l with
  | nil => intro p t h; simp [firstSplit] at h
  | cons c cs ih =>
    intro p t h p₂ t₂ hl
    by_cases hp : pat.isPrefixOf (c :: cs)
    · rw [firstSplit, if_pos hp] at h
      obtain ⟨rfl, rfl⟩ := Prod.mk.injEq .. ▸ Option.some.inj h
      simp
    · rw [firstSplit, if_neg hp] at h
      cases h2 : firstSplit pat cs with
      | none => rw [h2] at h; simp at h
      | some pr =>
        obtain ⟨p', s⟩ := pr
        rw [h2] at h
        obtain ⟨rfl, rfl⟩ := Prod.mk.injEq .. ▸ Option.some.inj h
        cases p₂ with
        | nil =>
          exfalso
          apply hp
          rw [List.isPrefixOf_iff_prefix]
          exact ⟨t₂, by simpa using hl.symm⟩
        | cons d p₂' =>
          have hd : cs = p₂' ++ pat ++ t₂ := by
            have := congrArg List.tail hl
            simpa using this
          have := ih h2 p₂' t₂ hd
          simpa using Nat.succ_le_succ this

theorem firstSplit_tail_ne_nil {pat : Str} (hne : pat ≠ []) {x rest : Str}
    (hx : occursIn pat x) (hr : rest ≠ []) :
    ∃ p t, firstSplit pat (x ++ rest) = some (p, t) ∧ t ≠ [] := by
  obtain ⟨a, b, hab⟩ := hx
  have hocc : occursIn pat (x ++ rest) := ⟨a, b ++ rest, by simp [hab]⟩
  obtain ⟨p, t, hsplit⟩ := firstSplit_isSome_of_occurs hne hocc
  refine ⟨p, t, hsplit, ?_⟩
  have hmin := firstSplit_minimal hsplit a (b ++ rest) (by simp [hab])
  have hlen1 := congrArg List.length (firstSplit_eq_append hsplit)
  have hlen2 := congrArg List.length hab
  have hrlen : 0 < rest.length := List.length_pos.mpr hr
  simp at hlen1 hlen2
  intro hcon
  rw [hcon] at hlen1
  simp at hlen1
  omega

theorem firstSplit_none_of_not_occurs {label l : Str} (h : ¬ occursIn label l) :
    firstSplit label l = none := by
  cases h2 : firstSplit label l with
  | none => rfl
  | some pr =>
    exact absurd (occurs_of_firstSplit (p := pr.1) (t := pr.2) (by simp [h2])) h

theorem fieldByRules_two (r1 r2 : Str → Option Str) (d : Str) (lines : List Str) :
    fieldByRules [r1, r2] d lines =
      (match findField r1 lines with
        | some v => v
        | none =>
          match findField r2 lines with
          | some v => v
          | none => d) := by
  unfold fieldByRules
  cases h1 : findField r1 lines with
  | some v => simp [List.findSome?_cons, h1]
  | none =>
    cases h2 : findField r2 lines with
    | some v => simp [List.findSome?_cons, h1, h2]
    | none => simp [List.findSome?_cons, h1, h2]

theorem fieldByRules_one (r1 : Str → Option Str) (d : Str) (lines : List Str) :
    fieldByRules [r1] d lines =
      (match findField r1 lines with
        | some v => v
        | none => d) := by
  unfold fieldByRules
  cases h1 : findField r1 lines with
  | some v => simp [List.findSome?_cons, h1]
  | none => simp [List.findSome?_cons, h1]

/-- C4 amended: the Index Builder's extractor does implement the spec's
ordered two-variant rule table (English preferred, documented defaults),
but the extractor shared by search, list and archival implements a
Chinese-only single-rule table whose title default is `未知主题`. -/
theorem claim_C4_extractors (lines : List Str) :
    extractMemoryInfo lines = specExtractMemoryInfo lines ∧
      getMemoryInfo lines = specZhOnlyInfo lines := by
  constructor
  · unfold extractMemoryInfo specExtractMemoryInfo
    rw [fieldByRules_two, fieldByRules_two, fieldByRules_two]
    cases findField (afterLabel enTimeLabel) lines <;>
      cases findField (afterLabel zhTimeLabel) lines <;> rfl
  · unfold getMemoryInfo specZhOnlyInfo
    rw [fieldByRules_one, fieldByRules_one]

set_option maxRecDepth 4000 in
/-- C4 counterexample: on a summary using the English title label, the
Index Builder's extractor finds the topic, while the extractor used by
search, list and archival does not recognise the English variant and
falls back to `未知主题`, which is not the documented default
`Unknown Topic`. -/
theorem claim_C4_counterexample :
    (extractMemoryInfo ["# Conversation Memory: API Design".data]).topic =
        "API Design".data ∧
      getMemoryInfo ["# Conversation Memory: API Design".data] =
        ⟨"未知主题".data, []⟩ ∧
      "未知主题".data ≠ "Unknown Topic".data := by
  refine ⟨by decide, by decide, by decide⟩

/-! ## C7: keyword aggregation -/

/-- Modelled from the spec: insert a keyword into the set unless already
present (JS `Set.add`, insertion order = first seen). -/
def insertFirst (acc : List Str) (k : Str) : List Str :=
  if k ∈ acc then acc else acc ++ [k]

/-- Modelled from the spec: union into a set with iteration order equal
to first-seen order. -/
def dedupFirst (l : List Str) : List Str := l.foldl insertFirst []

/-- Modelled from the spec: one record's keyword tokens — split on the
two comma separators, trimmed, empty tokens and placeholder tokens
discarded. -/
def keywordTokens (m : MemMeta) : List Str :=
  ((splitPred isKeywordSep m.keywords).map trimChars).filter
    (fun k => decide (k ≠ [] ∧ k ∉ placeholders))

/-- Modelled from the spec: the aggregated keyword set. -/
def specKeywords (mems : List MemMeta) : List Str :=
  dedupFirst (mems.flatMap keywordTokens)

theorem inner_fold_eq (toks : List Str) : ∀ (acc : List Str),
    toks.foldl
      (fun ks k =>
        if k ≠ [] ∧ k ∉ placeholders then (if k ∈ ks then ks else ks ++ [k]) else ks) acc =
    (toks.filter (fun k => decide (k ≠ [] ∧ k ∉ placeholders))).foldl insertFirst acc := by
  induction toks with
  | nil => intro acc; rfl
  | cons k toks ih =>
    intro acc
    by_cases hk : k ≠ [] ∧ k ∉ placeholders
    · rw [List.foldl_cons, if_pos hk, List.filter_cons_of_pos (by simpa using hk),
        List.foldl_cons]
      rw [ih]
      rfl
    · rw [List.foldl_cons, if_neg hk, List.filter_cons_of_neg (by simpa using hk)]
      exact ih acc

theorem foldl_flatMap_eq (mems : List MemMeta) : ∀ (acc : List Str),
    (mems.flatMap keywordTokens).foldl insertFirst acc =
      mems.foldl (fun ks m => (keywordTokens m).foldl insertFirst ks) acc := by
  induction mems with
  | nil => intro acc; rfl
  | cons m mems ih =>
    intro acc
    rw [List.flatMap_cons, List.foldl_append]
    exact ih _

/-- C7: `collectAllKeywords` splits on the two comma separators, trims,
discards empty and placeholder tokens, and unions in first-seen order;
on a keyword field consisting exactly of the placeholder tokens the
result is empty. -/
theorem claim_C7_keywords :
    (∀ mems : List MemMeta, collectAllKeywords mems = specKeywords mems) ∧
    collectAllKeywords
      [⟨"mem-20260111-143000".data, "t".data,
        "\x7bkeyword1\x7d, \x7bkeyword2\x7d, \x7bkeyword3\x7d, \x7b关键词1\x7d, \x7b关键词2\x7d, \x7b关键词3\x7d".data,
        "2026-01-11".data⟩] = [] := by
  constructor
  · intro mems
    unfold collectAllKeywords specKeywords dedupFirst
    rw [foldl_flatMap_eq]
    congr 1
    funext ks m
    by_cases hk : m.keywords = []
    · rw [if_pos hk]
      have : keywordTokens m = [] := by
        unfold keywordTokens
        rw [hk]
        decide
      rw [this]
      rfl
    · rw [if_neg hk]
      unfold keywordTokens
      exact inner_fold_eq _ ks
  · decide

/-! ## C8: record enumeration -/

theorem memPattern_startsWith : ∀ nm : Str, memNamePattern nm = true →
    "mem-".data.isPrefixOf nm = true := by
  intro nm h
  unfold memNamePattern at h
  split at h
  · next rest =>
    show List.isPrefixOf ['m', 'e', 'm', '-'] ('m' :: 'e' :: 'm' :: '-' :: rest) = true
    simp [List.isPrefixOf]
  · simp at h

/-- C8 counterexample: a directory named `mem-foo` does not match the
record-name pattern, yet enumeration returns it (the scripts filter only
on the `mem-` prefix). -/
theorem claim_C8_counterexample :
    memFilter [⟨"mem-foo".data, 0, none, none⟩] = [⟨"mem-foo".data, 0, none, none⟩] ∧
      memNamePattern "mem-foo".data = false := by
  constructor
  · decide
  · decide

/-- C8 amended: enumeration returns exactly the directories whose names
start with `mem-` (every name matching the full pattern does start with
`mem-`, so all well-formed records are enumerated, but so is any other
`mem-`-prefixed directory). -/
theorem claim_C8_enumeration (rs : List Rec) (r : Rec) :
    (r ∈ memFilter rs ↔ r ∈ rs ∧ "mem-".data.isPrefixOf r.name = true) ∧
      (memNamePattern r.name = true → "mem-".data.isPrefixOf r.name = true) := by
  constructor
  · unfold memFilter
    rw [List.mem_filter]
  · exact memPattern_startsWith r.name

/-- Witness for C8: a well-formed record id is enumerated. -/
theorem claim_C8_witness :
    (⟨"mem-20260111-143000".data, 0, none, none⟩ : Rec) ∈
        memFilter [⟨"mem-20260111-143000".data, 0, none, none⟩] ∧
      memNamePattern "mem-20260111-143000".data = true :=
  ⟨((claim_C8_enumeration [⟨"mem-20260111-143000".data, 0, none, none⟩]
      ⟨"mem-20260111-143000".data, 0, none, none⟩).1).mpr ⟨by decide, by decide⟩,
    by decide⟩

/-! ## C5: search -/

theorem lowerChars_ne_nil {kw : Str} (h : kw ≠ []) : lowerChars kw ≠ [] := by
  unfold lowerChars
  simpa using h

theorem jsIncludes_nil {pat : Str} (h : pat ≠ []) : jsIncludes [] pat = false := by
  unfold jsIncludes
  rw [show firstSplit pat [] = none from rfl]
  simp [List.isEmpty_iff, h]

/-- C5: search scans the records of both partitions and returns an entry
iff the keyword matches case-insensitively against its name, extracted
topic, extracted keyword field, or the full text of its conversation
document; a record whose summary titles it `API Design` is returned by
`search("api")`. -/
theorem claim_C5_search :
    (∀ (s : Store) (kw : Str), kw ≠ [] → ∀ e,
      e ∈ searchMemories kw s ↔
        e ∈ allMemories s ∧
          (jsIncludes (lowerChars e.name) (lowerChars kw) = true ∨
           jsIncludes (lowerChars e.topic) (lowerChars kw) = true ∨
           jsIncludes (lowerChars e.keywords) (lowerChars kw) = true ∨
           (∃ c, e.conversation = some c ∧
             jsIncludes (lowerChars c) (lowerChars kw) = true))) ∧
    (∃ e ∈ searchMemories "api".data
        ⟨[⟨"mem-20260111-143000".data, 0, some ["# 对话记忆：API Design".data], none⟩], []⟩,
      e.topic = "API Design".data ∧ e.location = Loc.active) := by
  constructor
  · intro s kw hkw e
    unfold searchMemories
    rw [List.mem_filter]
    constructor
    · rintro ⟨hmem, hmatch⟩
      refine ⟨hmem, ?_⟩
      unfold matchesKeyword at hmatch
      simp only [Bool.or_eq_true, Bool.and_eq_true] at hmatch
      rcases hmatch with ((h1 | h2) | h3) | h4
      · exact Or.inl h1
      · exact Or.inr (Or.inl h2.2)
      · exact Or.inr (Or.inr (Or.inl h3.2))
      · cases hc : e.conversation with
        | none => rw [hc] at h4; simp at h4
        | some c =>
          rw [hc] at h4
          exact Or.inr (Or.inr (Or.inr ⟨c, rfl, h4⟩))
    · rintro ⟨hmem, hdisj⟩
      refine ⟨hmem, ?_⟩
      unfold matchesKeyword
      simp only [Bool.or_eq_true, Bool.and_eq_true]
      rcases hdisj with h1 | h2 | h3 | ⟨c, hc, h4⟩
      · exact Or.inl (Or.inl (Or.inl h1))
      · refine Or.inl (Or.inl (Or.inr ⟨?_, h2⟩))
        have htne : e.topic ≠ [] := by
          intro hcon
          rw [hcon] at h2
          rw [show lowerChars [] = [] from rfl] at h2
          rw [jsIncludes_nil (lowerChars_ne_nil hkw)] at h2
          exact Bool.false_ne_true h2
        simpa using htne
      · refine Or.inl (Or.inr ⟨?_, h3⟩)
        have hkne : e.keywords ≠ [] := by
          intro hcon
          rw [hcon] at h3
          rw [show lowerChars [] = [] from rfl] at h3
          rw [jsIncludes_nil (lowerChars_ne_nil hkw)] at h3
          exact Bool.false_ne_true h3
        simpa using hkne
      · refine Or.inr ?_
        rw [hc]
        exact h4
  · decide

/-- Witness for C5: the `API Design` record is returned by
`search("api")` through the case-insensitive topic check. -/
theorem claim_C5_witness :
    ("api".data ≠ ([] : Str)) ∧
      (⟨"mem-20260111-143000".data, 0, "API Design".data, [], none, .active⟩ : SearchEntry) ∈
        searchMemories "api".data
          ⟨[⟨"mem-20260111-143000".data, 0, some ["# 对话记忆：API Design".data], none⟩], []⟩ :=
  ⟨by decide,
    (claim_C5_search.1
        ⟨[⟨"mem-20260111-143000".data, 0, some ["# 对话记忆：API Design".data], none⟩], []⟩
        ("api".data) (by decide)
        ⟨"mem-20260111-143000".data, 0, "API Design".data, [], none, .active⟩).mpr
      ⟨by decide, Or.inr (Or.inl (by decide))⟩⟩

/-! ## C9: reactivation -/

theorem any_name_iff (rs : List Rec) (nm : Str) :
    rs.any (fun m => m.name == nm) = true ↔ nm ∈ recNames rs := by
  simp [List.any_eq_true, recNames, List.mem_map, beq_iff_eq]

/-- C9: reactivation is a reported no-op for an already-active record,
relocates an archived record back to active and triggers the Index
Builder, and exits non-zero when the record is in neither partition. -/
theorem claim_C9_reactivation (s : Store) (nm : Str) :
    (nm ∈ recNames s.active → nm ∉ recNames s.archive →
      activateMemory nm s = (.alreadyActive, s) ∧
        exitCode (activateMemory nm s).1 = 0) ∧
    (nm ∈ recNames s.archive →
      (activateMemory nm s).1 = .activated ∧
        nm ∈ recNames (activateMemory nm s).2.active ∧
        nm ∉ recNames (activateMemory nm s).2.archive ∧
        triggersIndex (activateMemory nm s).1 = true ∧
        exitCode (activateMemory nm s).1 = 0) ∧
    (nm ∉ recNames s.active → nm ∉ recNames s.archive →
      activateMemory nm s = (.notFound, s) ∧
        exitCode (activateMemory nm s).1 ≠ 0) := by
  refine ⟨?_, ?_, ?_⟩
  · intro ha hna
    have h1 : s.archive.any (fun m => m.name == nm) = false := by
      rw [Bool.eq_false_iff]
      intro hcon
      exact hna ((any_name_iff s.archive nm).mp hcon)
    have h2 : s.active.any (fun m => m.name == nm) = true := (any_name_iff s.active nm).mpr ha
    constructor
    · simp [activateMemory, h1, h2]
    · simp [activateMemory, h1, h2, exitCode]
  · intro ha
    have h1 : s.archive.any (fun m => m.name == nm) = true := (any_name_iff s.archive nm).mpr ha
    obtain ⟨x, hx, hxname⟩ : ∃ x ∈ s.archive, x.name = nm := by
      simpa [recNames, List.mem_map] using ha
    refine ⟨by simp [activateMemory, h1], ?_, ?_, by simp [activateMemory, h1, triggersIndex],
      by simp [activateMemory, h1, exitCode]⟩
    · simp only [activateMemory, h1, if_pos]
      unfold recNames
      rw [List.map_append, List.mem_append]
      right
      rw [List.mem_map]
      exact ⟨x, List.mem_filter.mpr ⟨hx, by simp [hxname]⟩, hxname⟩
    · simp only [activateMemory, h1, if_pos]
      unfold recNames
      rw [List.mem_map]
      rintro ⟨y, hy, hyname⟩
      have := List.mem_filter.mp hy
      rw [hyname] at this
      simp at this
  · intro hna hnarch
    have h1 : s.archive.any (fun m => m.name == nm) = false := by
      rw [Bool.eq_false_iff]
      intro hcon
      exact hnarch ((any_name_iff s.archive nm).mp hcon)
    have h2 : s.active.any (fun m => m.name == nm) = false := by
      rw [Bool.eq_false_iff]
      intro hcon
      exact hna ((any_name_iff s.active nm).mp hcon)
    constructor
    · simp [activateMemory, h1, h2]
    · simp [activateMemory, h1, h2, exitCode]

/-- Witness for C9: a record present only in the archive is activated,
relocated and the index rebuild is triggered. -/
theorem claim_C9_witness :
    ("mem-20260101-000000".data ∈
        recNames (⟨[], [⟨"mem-20260101-000000".data, 0, none, none⟩]⟩ : Store).archive) ∧
      (activateMemory "mem-20260101-000000".data
          ⟨[], [⟨"mem-20260101-000000".data, 0, none, none⟩]⟩).1 = .activated ∧
      "mem-20260101-000000".data ∈
        recNames (activateMemory "mem-20260101-000000".data
          ⟨[], [⟨"mem-20260101-000000".data, 0, none, none⟩]⟩).2.active :=
  ⟨by decide,
    ((claim_C9_reactivation ⟨[], [⟨"mem-20260101-000000".data, 0, none, none⟩]⟩
        ("mem-20260101-000000".data)).2.1 (by decide)).1,
    ((claim_C9_reactivation ⟨[], [⟨"mem-20260101-000000".data, 0, none, none⟩]⟩
        ("mem-20260101-000000".data)).2.1 (by decide)).2.1⟩

/-! ## C3: name uniqueness across partitions -/

theorem mem_of_mem_arc {rs : List Rec} {m : Rec} (h : m ∈ getActiveMemoriesArc rs) :
    m ∈ rs := by
  unfold getActiveMemoriesArc at h
  have := (List.perm_insertionSort mtimeLe (memFilter rs)).mem_iff.mp h
  exact (List.mem_filter.mp this).1

theorem arc_names_nodup {rs : List Rec} (h : (recNames rs).Nodup) :
    (recNames (getActiveMemoriesArc rs)).Nodup := by
  unfold getActiveMemoriesArc
  have hperm : List.Perm (recNames (List.insertionSort mtimeLe (memFilter rs)))
      (recNames (memFilter rs)) :=
    (List.perm_insertionSort mtimeLe (memFilter rs)).map _
  rw [List.Perm.nodup_iff hperm]
  exact h.sublist ((List.filter_sublist rs).map _)

theorem foldl_push_mem {tag : Reason} : ∀ (xs : List Rec) (acc : List Cand) (c : Cand),
    c ∈ xs.foldl
      (fun acc m =>
        if acc.any (fun a => a.mem.name == m.name) then acc else acc ++ [⟨m, tag⟩]) acc →
    c ∈ acc ∨ c.mem ∈ xs := by
  intro xs
  induction xs with
  | nil => intro acc c h; exact Or.inl h
  | cons m xs ih =>
    intro acc c h
    rw [List.foldl_cons] at h
    rcases ih _ c h with hacc | hxs
    · by_cases hcond : acc.any (fun a => a.mem.name == m.name) = true
      · rw [if_pos hcond] at hacc
        exact Or.inl hacc
      · rw [if_neg hcond] at hacc
        rcases List.mem_append.mp hacc with h1 | h1
        · exact Or.inl h1
        · right
          have : c = ⟨m, tag⟩ := by simpa using h1
          rw [this]
          exact List.mem_cons_self m xs
    · exact Or.inr (List.mem_cons_of_mem m hxs)

theorem foldl_push_nodup {tag : Reason} : ∀ (xs : List Rec) (acc : List Cand),
    (acc.map (fun c => c.mem.name)).Nodup →
    ((xs.foldl
      (fun acc m =>
        if acc.any (fun a => a.mem.name == m.name) then acc else acc ++ [⟨m, tag⟩])
      acc).map (fun c => c.mem.name)).Nodup := by
  intro xs
  induction xs with
  | nil => intro acc h; exact h
  | cons m xs ih =>
    intro acc h
    rw [List.foldl_cons]
    by_cases hcond : acc.any (fun a => a.mem.name == m.name) = true
    · rw [if_pos hcond]
      exact ih _ h
    · rw [if_neg hcond]
      apply ih
      rw [List.map_append, List.nodup_append]
      refine ⟨h, by simp, ?_⟩
      intro n hn hn2
      simp at hn2
      obtain ⟨a, ha, haname⟩ := List.mem_map.mp hn
      apply hcond
      rw [List.any_eq_true]
      exact ⟨a, ha, by rw [haname, hn2]; exact beq_self_eq_true m.name⟩

theorem mem_ite_cases {α : Type} {P : Prop} [Decidable P] {a b : List α} {x : α}
    (h : x ∈ (if P then a else b)) : x ∈ a ∨ x ∈ b := by
  by_cases hP : P
  · rw [if_pos hP] at h; exact Or.inl h
  · rw [if_neg hP] at h; exact Or.inr h

theorem nodup_names_ite2 {P1 P2 : Prop} [Decidable P1] [Decidable P2] {x t1 : List Cand}
    (hx : (x.map (fun c => c.mem.name)).Nodup) (ht : (t1.map (fun c => c.mem.name)).Nodup) :
    (((if P1 then (if P2 then x else t1) else t1) : List Cand).map
      (fun c => c.mem.name)).Nodup := by
  by_cases h1 : P1
  · rw [if_pos h1]
    by_cases h2 : P2
    · rw [if_pos h2]; exact hx
    · rw [if_neg h2]; exact ht
  · rw [if_neg h1]; exact ht

theorem cand_mem_active {cfg : Config} {now : Int} {force : Bool} {rs : List Rec} {c : Cand}
    (h : c ∈ getMemoriesToArchive cfg now force rs) : c.mem ∈ rs := by
  simp only [getMemoriesToArchive] at h
  have hage : ∀ c2 : Cand,
      c2 ∈ (List.map (fun m => (⟨m, Reason.age⟩ : Cand))
        ((getActiveMemoriesArc rs).filter
          (fun m => decide ((cfg.archiveAfterDays : ℚ) < daysSince now m.mtime)))) →
      c2.mem ∈ rs := by
    intro c2 hc2
    obtain ⟨m, hm, hmc⟩ := List.mem_map.mp hc2
    rw [← hmc]
    exact mem_of_mem_arc (List.mem_filter.mp hm).1
  rcases mem_ite_cases h with h1 | h1
  · rcases mem_ite_cases h1 with h2 | h2
    · rcases foldl_push_mem _ _ _ h2 with h3 | h3
      · exact hage c h3
      · exact mem_of_mem_arc (List.mem_filter.mp (List.mem_of_mem_take h3)).1
    · exact hage c h2
  · exact hage c h1

theorem cand_names_nodup {cfg : Config} {now : Int} {force : Bool} {rs : List Rec}
    (h : (recNames rs).Nodup) :
    ((getMemoriesToArchive cfg now force rs).map (fun c => c.mem.name)).Nodup := by
  simp only [getMemoriesToArchive]
  have hmemnodup := @arc_names_nodup rs h
  have hagenodup : (((getActiveMemoriesArc rs).filter
      (fun m => decide ((cfg.archiveAfterDays : ℚ) < daysSince now m.mtime))).map
        (fun m => m.name)).Nodup :=
    hmemnodup.sublist ((List.filter_sublist _).map _)
  have hage : ((List.map (fun m => (⟨m, Reason.age⟩ : Cand))
      ((getActiveMemoriesArc rs).filter
        (fun m => decide ((cfg.archiveAfterDays : ℚ) < daysSince now m.mtime)))).map
          (fun c => c.mem.name)).Nodup := by
    rw [List.map_map]
    exact hagenodup
  exact nodup_names_ite2 (foldl_push_nodup _ _ hage) hage

theorem recNames_filter (p : Str → Bool) (rs : List Rec) :
    recNames (rs.filter (fun m => p m.name)) = (recNames rs).filter p := by
  induction rs with
  | nil => rfl
  | cons r rs ih =>
    unfold recNames at ih ⊢
    rw [List.filter_cons, List.map_cons, List.filter_cons]
    by_cases hp : p r.name = true
    · simp [hp, ih]
    · simp [hp, ih]

instance : ∀ s : Store, Decidable (crossUnique s) := fun s =>
  inferInstanceAs (Decidable ((recNames (s.active ++ s.archive)).Nodup))

theorem crossUnique_archiveApply {cfg : Config} {now : Int} {force : Bool} {s : Store}
    (h : crossUnique s) : crossUnique (runArchiveApply cfg now force s) := by
  have hAll : (recNames s.active ++ recNames s.archive).Nodup := by
    unfold crossUnique recNames at h
    rwa [List.map_append] at h
  have hActNodup : (recNames s.active).Nodup := hAll.of_append_left
  unfold runArchiveApply crossUnique
  have hCnodup : ((getMemoriesToArchive cfg now force s.active).map
      (fun c => c.mem.name)).Nodup := cand_names_nodup hActNodup
  have hCsub : ∀ n ∈ (getMemoriesToArchive cfg now force s.active).map
      (fun c => c.mem.name), n ∈ recNames s.active := by
    intro n hn
    obtain ⟨c, hc, hcn⟩ := List.mem_map.mp hn
    rw [← hcn]
    exact List.mem_map.mpr ⟨c.mem, cand_mem_active hc, rfl⟩
  have hactive2 : recNames (s.active.filter
      (fun m => !((getMemoriesToArchive cfg now force s.active).any
        (fun c => c.mem.name == m.name)))) =
      (recNames s.active).filter
        (fun n => !((getMemoriesToArchive cfg now force s.active).any
          (fun c => c.mem.name == n))) :=
    recNames_filter
      (fun n => !((getMemoriesToArchive cfg now force s.active).any
        (fun c => c.mem.name == n))) s.active
  unfold recNames at hactive2 hCnodup hCsub hAll hActNodup ⊢
  rw [List.map_append, hactive2, List.map_append, List.map_map]
  have hq_iff : ∀ n, ((getMemoriesToArchive cfg now force s.active).any
      (fun c => c.mem.name == n)) = true ↔
      n ∈ (getMemoriesToArchive cfg now force s.active).map (fun c => c.mem.name) := by
    intro n
    simp [List.any_eq_true, List.mem_map, beq_iff_eq]
  have hperm1 : List.Perm
      ((getMemoriesToArchive cfg now force s.active).map (fun c => c.mem.name))
      ((s.active.map (fun m => m.name)).filter
        (fun n => (getMemoriesToArchive cfg now force s.active).any
          (fun c => c.mem.name == n))) := by
    rw [List.perm_ext_iff_of_nodup hCnodup (hActNodup.filter _)]
    intro n
    constructor
    · intro hn
      exact List.mem_filter.mpr ⟨hCsub n hn, (hq_iff n).mpr hn⟩
    · intro hn
      exact (hq_iff n).mp (List.mem_filter.mp hn).2
  have hdouble : (s.active.map (fun m => m.name)).filter
      (fun n => !(!((getMemoriesToArchive cfg now force s.active).any
        (fun c => c.mem.name == n)))) =
      (s.active.map (fun m => m.name)).filter
        (fun n => (getMemoriesToArchive cfg now force s.active).any
          (fun c => c.mem.name == n)) := by
    simp
  have hperm2 : List.Perm
      ((s.active.map (fun m => m.name)).filter
        (fun n => !((getMemoriesToArchive cfg now force s.active).any
          (fun c => c.mem.name == n))) ++
        (getMemoriesToArchive cfg now force s.active).map (fun c => c.mem.name))
      (s.active.map (fun m => m.name)) := by
    refine List.Perm.trans (List.Perm.append_left _ hperm1) ?_
    have := List.filter_append_perm
      (fun n => !((getMemoriesToArchive cfg now force s.active).any
        (fun c => c.mem.name == n))) (s.active.map (fun m => m.name))
    rwa [hdouble] at this
  have hfinal : List.Perm
      ((s.active.map (fun m => m.name)).filter
        (fun n => !((getMemoriesToArchive cfg now force s.active).any
          (fun c => c.mem.name == n))) ++
        (s.archive.map (fun m => m.name) ++
          (getMemoriesToArchive cfg now force s.active).map (fun c => c.mem.name)))
      (s.active.map (fun m => m.name) ++ s.archive.map (fun m => m.name)) := by
    refine List.Perm.trans (List.Perm.append_left _ (List.perm_append_comm)) ?_
    rw [← List.append_assoc]
    exact List.Perm.append_right _ hperm2
  exact hfinal.symm.nodup hAll

theorem crossUnique_activate {s : Store} (h : crossUnique s) (nm : Str) :
    crossUnique (activateMemory nm s).2 := by
  unfold activateMemory
  by_cases h1 : s.archive.any (fun m => m.name == nm) = true
  · rw [if_pos h1]
    show crossUnique ⟨s.active ++ s.archive.filter (fun m => m.name == nm),
      s.archive.filter (fun m => !(m.name == nm))⟩
    have hAll : (recNames s.active ++ recNames s.archive).Nodup := by
      unfold crossUnique recNames at h
      rwa [List.map_append] at h
    unfold crossUnique
    have h2 : recNames (s.archive.filter (fun m => m.name == nm)) =
        (recNames s.archive).filter (fun n => n == nm) :=
      recNames_filter (fun n => n == nm) s.archive
    have h3 : recNames (s.archive.filter (fun m => !(m.name == nm))) =
        (recNames s.archive).filter (fun n => !(n == nm)) :=
      recNames_filter (fun n => !(n == nm)) s.archive
    unfold recNames at h2 h3 hAll ⊢
    rw [List.map_append, List.map_append, h2, h3, List.append_assoc]
    have hperm : List.Perm
        ((s.archive.map (fun m => m.name)).filter (fun n => n == nm) ++
          (s.archive.map (fun m => m.name)).filter (fun n => !(n == nm)))
        (s.archive.map (fun m => m.name)) :=
      List.filter_append_perm _ _
    exact ((List.Perm.append_left _ hperm).symm.nodup hAll)
  · rw [if_neg h1]
    by_cases h2 : s.active.any (fun m => m.name == nm) = true
    · rw [if_pos h2]; exact h
    · rw [if_neg h2]; exact h

theorem crossUnique_create {s : Store} {nm : Str} {now : Int} {ts : Str} {s2 : Store}
    (h : crossUnique s) (hnarch : nm ∉ recNames s.archive)
    (hcr : createMemory nm now ts s = .ok s2) : crossUnique s2 := by
  unfold createMemory at hcr
  by_cases hdup : s.active.any (fun m => m.name == nm) = true
  · rw [if_pos hdup] at hcr; simp at hcr
  · rw [if_neg hdup] at hcr
    have hs2 : s2 = { s with active := s.active ++
        [⟨nm, now, some (summaryTemplateLines ts), some (conversationTemplate ts)⟩] } :=
      (Except.ok.inj hcr).symm
    have hnact : nm ∉ recNames s.active := by
      intro hcon
      exact hdup ((any_name_iff s.active nm).mpr hcon)
    have hAll : (recNames s.active ++ recNames s.archive).Nodup := by
      unfold crossUnique recNames at h
      rwa [List.map_append] at h
    rw [hs2]
    unfold crossUnique recNames
    rw [List.map_append, List.map_append]
    have hshape : s.active.map (fun m => m.name) ++
        List.map (fun (m : Rec) => m.name)
          [⟨nm, now, some (summaryTemplateLines ts), some (conversationTemplate ts)⟩] ++
        s.archive.map (fun m => m.name) =
        s.active.map (fun m => m.name) ++ nm :: s.archive.map (fun m => m.name) := by
      simp
    rw [hshape]
    have hperm : List.Perm
        (s.active.map (fun m => m.name) ++ nm :: s.archive.map (fun m => m.name))
        (nm :: (s.active.map (fun m => m.name) ++ s.archive.map (fun m => m.name))) :=
      List.perm_middle
    rw [hperm.nodup_iff]
    rw [List.nodup_cons]
    refine ⟨?_, hAll⟩
    intro hcon
    rcases List.mem_append.mp hcon with hc | hc
    · exact hnact hc
    · exact hnarch hc

/-- C3 amended: cross-partition uniqueness is preserved by archive-apply
and by reactivation, and by record creation whenever the name is absent
from the archive partition (the creation check itself consults only the
active partition). -/
theorem claim_C3_uniqueness (s : Store) (nm : Str) (now : Int) (ts : Str)
    (cfg : Config) (force : Bool) (h : crossUnique s) :
    (nm ∉ recNames s.archive →
      ∀ s2, createMemory nm now ts s = .ok s2 → crossUnique s2) ∧
      crossUnique (runArchiveApply cfg now force s) ∧
      crossUnique (activateMemory nm s).2 :=
  ⟨fun hnarch _ hcr => crossUnique_create h hnarch hcr,
    crossUnique_archiveApply h, crossUnique_activate h nm⟩

/-- Witness for the amended C3. -/
theorem claim_C3_witness :
    crossUnique (⟨[], [⟨"mem-20260101-000000".data, 0, none, none⟩]⟩ : Store) ∧
      crossUnique (runArchiveApply defaultConfig 0 false
        ⟨[], [⟨"mem-20260101-000000".data, 0, none, none⟩]⟩) :=
  ⟨by decide,
    (claim_C3_uniqueness ⟨[], [⟨"mem-20260101-000000".data, 0, none, none⟩]⟩
      ("x".data) 0 [] defaultConfig false (by decide)).2.1⟩

/-- C3 counterexample: starting from a uniqueness-satisfying store whose
archive already holds `mem-20260101-000000`, `createMemory` for the same
name succeeds (its duplicate check consults only the active partition)
and the resulting store violates cross-partition uniqueness. -/
theorem claim_C3_counterexample :
    crossUnique (⟨[], [⟨"mem-20260101-000000".data, 0, none, none⟩]⟩ : Store) ∧
      ((createMemory "mem-20260101-000000".data 5 "2026-01-02 00:00".data
          ⟨[], [⟨"mem-20260101-000000".data, 0, none, none⟩]⟩).map
        (fun s2 => decide (crossUnique s2))) = Except.ok false := by
  constructor
  · decide
  · rfl

/-! ## C1, C2: the archival policy -/

theorem mem_eq_of_name_eq {memories : List Rec} (hnd : (recNames memories).Nodup)
    {x y : Rec} (hx : x ∈ memories) (hy : y ∈ memories) (hname : x.name = y.name) :
    x = y :=
  List.inj_on_of_nodup_map hnd hx hy hname

theorem age_any_iff {cfg : Config} {now : Int} {memories : List Rec}
    (hnd : (recNames memories).Nodup) {m : Rec} (hm : m ∈ memories) :
    ((memories.filter
      (fun m2 => decide ((cfg.archiveAfterDays : ℚ) < daysSince now m2.mtime))).map
        (fun m2 => (⟨m2, Reason.age⟩ : Cand))).any (fun a => a.mem.name == m.name) =
      decide ((cfg.archiveAfterDays : ℚ) < daysSince now m.mtime) := by
  by_cases hover : (cfg.archiveAfterDays : ℚ) < daysSince now m.mtime
  · rw [decide_eq_true hover]
    rw [List.any_eq_true]
    refine ⟨⟨m, Reason.age⟩, List.mem_map.mpr
      ⟨m, List.mem_filter.mpr ⟨hm, decide_eq_true hover⟩, rfl⟩, ?_⟩
    exact beq_self_eq_true m.name
  · rw [decide_eq_false hover]
    rw [Bool.eq_false_iff]
    intro hcon
    obtain ⟨a, ha, haname⟩ := List.any_eq_true.mp hcon
    obtain ⟨m2, hm2, hm2a⟩ := List.mem_map.mp ha
    obtain ⟨hm2mem, hm2over⟩ := List.mem_filter.mp hm2
    have hname : m2.name = m.name := by
      rw [← hm2a] at haname
      exact beq_iff_eq.mp haname
    have : m2 = m := mem_eq_of_name_eq hnd hm2mem hm hname
    rw [this] at hm2over
    exact hover (of_decide_eq_true hm2over)

theorem remaining_eq_spec {cfg : Config} {now : Int} {memories : List Rec}
    (hnd : (recNames memories).Nodup) :
    memories.filter
      (fun m => !(((memories.filter
        (fun m2 => decide ((cfg.archiveAfterDays : ℚ) < daysSince now m2.mtime))).map
          (fun m2 => (⟨m2, Reason.age⟩ : Cand))).any (fun a => a.mem.name == m.name))) =
    memories.filter
      (fun m => !(decide ((cfg.archiveAfterDays : ℚ) < daysSince now m.mtime))) := by
  apply List.filter_congr
  intro m hm
  rw [age_any_iff hnd hm]

theorem foldl_push_eq_append {tag : Reason} : ∀ (xs : List Rec) (acc : List Cand),
    (∀ m ∈ xs, acc.any (fun a => a.mem.name == m.name) = false) →
    ((xs.map (fun m => m.name)).Nodup) →
    xs.foldl
      (fun acc m =>
        if acc.any (fun a => a.mem.name == m.name) then acc else acc ++ [⟨m, tag⟩]) acc =
      acc ++ xs.map (fun m => (⟨m, tag⟩ : Cand)) := by
  intro xs
  induction xs with
  | nil => intro acc _ _; simp
  | cons m xs ih =>
    intro acc hfresh hnd
    rw [List.foldl_cons, if_neg (by rw [hfresh m (List.mem_cons_self m xs)]; simp)]
    rw [List.map_cons, List.nodup_cons] at hnd
    have hstep := ih (acc ++ [⟨m, tag⟩]) ?_ hnd.2
    · rw [hstep]
      simp
    · intro m2 hm2
      rw [List.any_append]
      have h1 : acc.any (fun a => a.mem.name == m2.name) = false :=
        hfresh m2 (List.mem_cons_of_mem m hm2)
      have h2 : ([(⟨m, tag⟩ : Cand)]).any (fun a => a.mem.name == m2.name) = false := by
        have : m.name ≠ m2.name := by
          intro hcon
          exact hnd.1 (hcon ▸ List.mem_map.mpr ⟨m2, hm2, rfl⟩)
        simp [this]
      rw [h1, h2]
      rfl

theorem no_force_candidates (cfg : Config) (now : Int) (activeRecs : List Rec)
    (memories remaining : List Rec)
    (hnd : (recNames activeRecs).Nodup)
    (hmem : memories = getActiveMemoriesArc activeRecs)
    (hrem : remaining = memories.filter
      (fun m => !(decide ((cfg.archiveAfterDays : ℚ) < daysSince now m.mtime)))) :
    List.Sorted mtimeLe memories ∧
    getMemoriesToArchive cfg now false activeRecs =
      (memories.filter
        (fun m => decide ((cfg.archiveAfterDays : ℚ) < daysSince now m.mtime))).map
          (fun m => ⟨m, Reason.age⟩) ++
        (if cfg.maxActiveMemories < remaining.length then
          (remaining.take (remaining.length - cfg.maxActiveMemories)).map
            (fun m => ⟨m, Reason.capacity⟩)
        else []) := by
  subst hmem
  subst hrem
  have hMnd : (recNames (getActiveMemoriesArc activeRecs)).Nodup := arc_names_nodup hnd
  constructor
  · unfold getActiveMemoriesArc
    exact List.sorted_insertionSort mtimeLe (memFilter activeRecs)
  · simp only [getMemoriesToArchive]
    rw [remaining_eq_spec hMnd]
    have htag : (fun (acc : List Cand) (m : Rec) =>
        if acc.any (fun a => a.mem.name == m.name) then acc
        else acc ++ [⟨m, if (false : Bool) = true then Reason.forced else Reason.capacity⟩]) =
        (fun (acc : List Cand) (m : Rec) =>
          if acc.any (fun a => a.mem.name == m.name) then acc
          else acc ++ [⟨m, Reason.capacity⟩]) := rfl
    by_cases hlen : cfg.maxActiveMemories <
        ((getActiveMemoriesArc activeRecs).filter
          (fun m => !(decide ((cfg.archiveAfterDays : ℚ) < daysSince now m.mtime)))).length
    · rw [if_pos (Or.inl hlen), if_pos (Or.inl (by omega :
        (0 : ℤ) < (((getActiveMemoriesArc activeRecs).filter
          (fun m => !(decide ((cfg.archiveAfterDays : ℚ) < daysSince now m.mtime)))).length : ℤ) -
          (cfg.maxActiveMemories : ℤ)))]
      rw [htag]
      have hcnt : (if (false : Bool) = true then 1
          else ((((getActiveMemoriesArc activeRecs).filter
            (fun m => !(decide ((cfg.archiveAfterDays : ℚ) < daysSince now m.mtime)))).length : ℤ) -
              (cfg.maxActiveMemories : ℤ)).toNat) =
          ((getActiveMemoriesArc activeRecs).filter
            (fun m => !(decide ((cfg.archiveAfterDays : ℚ) < daysSince now m.mtime)))).length -
            cfg.maxActiveMemories := by
        rw [if_neg (by simp)]
        omega
      rw [hcnt]
      rw [if_pos hlen]
      apply foldl_push_eq_append
      · intro m hm
        have hmrem := List.mem_of_mem_take hm
        obtain ⟨hmmem, hmover⟩ := List.mem_filter.mp hmrem
        rw [age_any_iff hMnd hmmem]
        simpa using hmover
      · have hsub : List.Sublist
            (((getActiveMemoriesArc activeRecs).filter
              (fun m => !(decide ((cfg.archiveAfterDays : ℚ) < daysSince now m.mtime)))).take
                (((getActiveMemoriesArc activeRecs).filter
                  (fun m => !(decide ((cfg.archiveAfterDays : ℚ) < daysSince now m.mtime)))).length -
                cfg.maxActiveMemories))
            (getActiveMemoriesArc activeRecs) :=
          (List.take_sublist _ _).trans (List.filter_sublist _)
        exact hMnd.sublist (hsub.map _)
    · rw [if_neg ?_, if_neg hlen, List.append_nil]
      rintro (h | h)
      · exact hlen h
      · simp at h

/-- C1: with `force` unset, the archival candidates are exactly the
over-age records tagged "age" followed, when the remainder exceeds the
configured maximum, by the oldest `count(remaining) - max` remaining
records in last-modified ascending order tagged "capacity"; in the
three-record scenario with `maxActiveRecords = 2` and no record over the
age threshold, archive-apply relocates exactly the oldest record and
leaves the other two active. -/
theorem claim_C1_archival :
    (∀ (cfg : Config) (now : Int) (activeRecs : List Rec) (memories remaining : List Rec),
      (recNames activeRecs).Nodup →
      memories = getActiveMemoriesArc activeRecs →
      remaining = memories.filter
        (fun m => !(decide ((cfg.archiveAfterDays : ℚ) < daysSince now m.mtime))) →
      List.Sorted mtimeLe memories ∧
      getMemoriesToArchive cfg now false activeRecs =
        (memories.filter
          (fun m => decide ((cfg.archiveAfterDays : ℚ) < daysSince now m.mtime))).map
            (fun m => ⟨m, Reason.age⟩) ++
          (if cfg.maxActiveMemories < remaining.length then
            (remaining.take (remaining.length - cfg.maxActiveMemories)).map
              (fun m => ⟨m, Reason.capacity⟩)
          else [])) ∧
    (∀ (now : Int) (a b c : Rec),
      a.mtime < b.mtime → b.mtime < c.mtime →
      "mem-".data.isPrefixOf a.name = true → "mem-".data.isPrefixOf b.name = true →
      "mem-".data.isPrefixOf c.name = true →
      a.name ≠ b.name → a.name ≠ c.name → b.name ≠ c.name →
      daysSince now a.mtime ≤ 14 → daysSince now b.mtime ≤ 14 →
      daysSince now c.mtime ≤ 14 →
      runArchiveApply ⟨2, 14⟩ now false ⟨[a, b, c], []⟩ = ⟨[b, c], [a]⟩) := by
  constructor
  · exact no_force_candidates
  · intro now a b c hab hbc hpa hpb hpc hne1 hne2 hne3 hda hdb hdc
    have hnd : (recNames [a, b, c]).Nodup := by
      simp [recNames, hne1, hne2, hne3]
    have hfilter : memFilter [a, b, c] = [a, b, c] := by
      unfold memFilter
      simp [List.filter_cons, hpa, hpb, hpc]
    have hle1 : mtimeLe a b := le_of_lt hab
    have hle2 : mtimeLe b c := le_of_lt hbc
    have hsort : getActiveMemoriesArc [a, b, c] = [a, b, c] := by
      unfold getActiveMemoriesArc
      rw [hfilter]
      simp [List.insertionSort, List.orderedInsert, hle1, hle2]
    have heq := (no_force_candidates ⟨2, 14⟩ now [a, b, c] _ _ hnd rfl rfl).2
    rw [hsort] at heq
    have hage : ([a, b, c].filter
        (fun m => decide ((((⟨2, 14⟩ : Config)).archiveAfterDays : ℚ) < daysSince now m.mtime))) =
        [] := by
      rw [List.filter_cons_of_neg (by simp [hda]), List.filter_cons_of_neg (by simp [hdb]),
        List.filter_cons_of_neg (by simp [hdc]), List.filter_nil]
    have hrem : ([a, b, c].filter
        (fun m => !(decide ((((⟨2, 14⟩ : Config)).archiveAfterDays : ℚ) < daysSince now m.mtime)))) =
        [a, b, c] := by
      rw [List.filter_cons_of_pos (by simp [hda]), List.filter_cons_of_pos (by simp [hdb]),
        List.filter_cons_of_pos (by simp [hdc]), List.filter_nil]
    rw [hage, hrem] at heq
    have hcands : getMemoriesToArchive ⟨2, 14⟩ now false [a, b, c] = [⟨a, Reason.capacity⟩] := by
      rw [heq]
      rw [if_pos (by simp : (⟨2, 14⟩ : Config).maxActiveMemories < ([a, b, c] : List Rec).length)]
      simp
    unfold runArchiveApply
    rw [hcands]
    dsimp only
    have hfa : ((([⟨a, Reason.capacity⟩] : List Cand)).any (fun c2 => c2.mem.name == a.name)) =
        true := by simp
    have hfb : ((([⟨a, Reason.capacity⟩] : List Cand)).any (fun c2 => c2.mem.name == b.name)) =
        false := by simp [beq_eq_false_iff_ne, hne1]
    have hfc : ((([⟨a, Reason.capacity⟩] : List Cand)).any (fun c2 => c2.mem.name == c.name)) =
        false := by simp [beq_eq_false_iff_ne, hne2]
    have hactive : ([a, b, c].filter
        (fun m => !((([⟨a, Reason.capacity⟩] : List Cand)).any
          (fun c2 => c2.mem.name == m.name)))) = [b, c] := by
      rw [List.filter_cons_of_neg (by rw [hfa]; simp), List.filter_cons_of_pos (by rw [hfb]; simp),
        List.filter_cons_of_pos (by rw [hfc]; simp), List.filter_nil]
    rw [hactive]
    simp

/-- C2: with `force` set and at least one record remaining after the age
rule, exactly one record — the oldest remaining by last-modified time —
is added as a candidate tagged "forced", the capacity computation is
bypassed, and no candidate carries the capacity reason. -/
theorem claim_C2_force (cfg : Config) (now : Int) (activeRecs : List Rec)
    (memories : List Rec) (toArchive1 : List Cand) (remaining : List Rec) (m : Rec)
    (hmem : memories = getActiveMemoriesArc activeRecs)
    (harch : toArchive1 = (memories.filter
      (fun m2 => decide ((cfg.archiveAfterDays : ℚ) < daysSince now m2.mtime))).map
        (fun m2 => ⟨m2, Reason.age⟩))
    (hrem : remaining = memories.filter
      (fun m2 => !(toArchive1.any (fun a => a.mem.name == m2.name))))
    (hhead : remaining.head? = some m) :
    getMemoriesToArchive cfg now true activeRecs = toArchive1 ++ [⟨m, Reason.forced⟩] ∧
      (∀ cand ∈ getMemoriesToArchive cfg now true activeRecs,
        cand.reason ≠ Reason.capacity) ∧
      (getMemoriesToArchive cfg now true activeRecs).countP
        (fun cand => cand.reason == Reason.forced) = 1 ∧
      (∀ x ∈ remaining, m.mtime ≤ x.mtime) := by
  obtain ⟨tail, hrems⟩ : ∃ tail, remaining = m :: tail := by
    cases hr : remaining with
    | nil => rw [hr] at hhead; simp at hhead
    | cons h t =>
      rw [hr] at hhead
      simp at hhead
      exact ⟨t, by rw [hhead]⟩
  have hsorted : List.Sorted mtimeLe memories := by
    rw [hmem]
    unfold getActiveMemoriesArc
    exact List.sorted_insertionSort mtimeLe (memFilter activeRecs)
  have hmm : m ∈ remaining := hrems ▸ List.mem_cons_self m tail
  have hmfresh : toArchive1.any (fun a => a.mem.name == m.name) = false := by
    rw [hrem] at hmm
    have := (List.mem_filter.mp hmm).2
    simpa using this
  have heq : getMemoriesToArchive cfg now true activeRecs =
      toArchive1 ++ [⟨m, Reason.forced⟩] := by
    simp only [getMemoriesToArchive]
    rw [← hmem, ← harch, ← hrem]
    rw [if_pos (Or.inr trivial), if_pos (Or.inr trivial)]
    have hcnt : (if True then 1
        else ((remaining.length : ℤ) - (cfg.maxActiveMemories : ℤ)).toNat) = 1 :=
      if_pos trivial
    have htag : (if True then Reason.forced else Reason.capacity) = Reason.forced :=
      if_pos trivial
    rw [hcnt, htag, hrems]
    have htake : (m :: tail).take 1 = [m] := by simp
    rw [htake, List.foldl_cons, if_neg (by rw [hmfresh]; simp), List.foldl_nil]
  refine ⟨heq, ?_, ?_, ?_⟩
  · intro cand hc
    rw [heq] at hc
    rcases List.mem_append.mp hc with h1 | h1
    · rw [harch] at h1
      obtain ⟨m2, _, hm2⟩ := List.mem_map.mp h1
      rw [← hm2]
      simp
    · have : cand = ⟨m, Reason.forced⟩ := by simpa using h1
      rw [this]
      simp
  · rw [heq, List.countP_append]
    have h0 : toArchive1.countP (fun cand => cand.reason == Reason.forced) = 0 := by
      rw [List.countP_eq_zero]
      intro cand hc
      rw [harch] at hc
      obtain ⟨m2, _, hm2⟩ := List.mem_map.mp hc
      rw [← hm2]
      simp
    rw [h0]
    simp
  · intro x hx
    have hremsorted : List.Sorted mtimeLe remaining := by
      rw [hrem]
      exact hsorted.filter _
    rw [hrems] at hremsorted hx
    rcases List.mem_cons.mp hx with rfl | hx2
    · exact le_refl _
    · exact (List.pairwise_cons.mp hremsorted).1 x hx2

/-- Witness for C1: three records, `maxActiveRecords = 2`, nothing over
the age threshold — exactly the oldest is relocated. -/
theorem claim_C1_witness :
    runArchiveApply ⟨2, 14⟩ 3000 false
        ⟨[⟨"mem-20260101-000000".data, 0, none, none⟩,
          ⟨"mem-20260102-000000".data, 1000, none, none⟩,
          ⟨"mem-20260103-000000".data, 2000, none, none⟩], []⟩ =
      ⟨[⟨"mem-20260102-000000".data, 1000, none, none⟩,
        ⟨"mem-20260103-000000".data, 2000, none, none⟩],
        [⟨"mem-20260101-000000".data, 0, none, none⟩]⟩ :=
  claim_C1_archival.2 3000
    ⟨"mem-20260101-000000".data, 0, none, none⟩
    ⟨"mem-20260102-000000".data, 1000, none, none⟩
    ⟨"mem-20260103-000000".data, 2000, none, none⟩
    (by decide) (by decide) (by decide) (by decide) (by decide)
    (by decide) (by decide) (by decide)
    (by norm_num [daysSince, msPerDay])
    (by norm_num [daysSince, msPerDay])
    (by norm_num [daysSince, msPerDay])

/-- Witness for C2: a single active record under the age threshold is
forced out as the unique forced candidate. -/
theorem claim_C2_witness :
    getMemoriesToArchive ⟨20, 14⟩ 0 true [⟨"mem-20260101-000000".data, 0, none, none⟩] =
        [] ++ [⟨⟨"mem-20260101-000000".data, 0, none, none⟩, Reason.forced⟩] ∧
      (∀ cand ∈ getMemoriesToArchive ⟨20, 14⟩ 0 true
          [⟨"mem-20260101-000000".data, 0, none, none⟩],
        cand.reason ≠ Reason.capacity) ∧
      (getMemoriesToArchive ⟨20, 14⟩ 0 true
        [⟨"mem-20260101-000000".data, 0, none, none⟩]).countP
          (fun cand => cand.reason == Reason.forced) = 1 ∧
      (∀ x ∈ [(⟨"mem-20260101-000000".data, 0, none, none⟩ : Rec)],
        (⟨"mem-20260101-000000".data, 0, none, none⟩ : Rec).mtime ≤ x.mtime) :=
  claim_C2_force ⟨20, 14⟩ 0 [⟨"mem-20260101-000000".data, 0, none, none⟩]
    [⟨"mem-20260101-000000".data, 0, none, none⟩] []
    [⟨"mem-20260101-000000".data, 0, none, none⟩]
    ⟨"mem-20260101-000000".data, 0, none, none⟩
    (by decide)
    (by rw [List.filter_cons_of_neg
        (by simp [daysSince, msPerDay]), List.filter_nil]; rfl)
    (by decide) rfl

/-! ## C10: records with a missing summary document -/

theorem filterMap_drop_name (f : Rec → Option MemMeta) (nm : Str) :
    ∀ (l : List Rec), (∀ x ∈ l, x.name = nm → f x = none) →
      l.filterMap f = (l.filter (fun x => !(x.name == nm))).filterMap f := by
  intro l
  induction l with
  | nil => intro _; rfl
  | cons x l ih =>
    intro hkey
    by_cases hx : x.name = nm
    · rw [List.filter_cons_of_neg (by simp [hx]), List.filterMap_cons,
        hkey x (List.mem_cons_self x l) hx]
      exact ih (fun y hy => hkey y (List.mem_cons_of_mem x hy))
    · rw [List.filter_cons_of_pos (by simp [hx]), List.filterMap_cons, List.filterMap_cons]
      rw [ih (fun y hy => hkey y (List.mem_cons_of_mem x hy))]

/-- C10: an active record directory whose `summary.md` is missing is
silently skipped by the Index Builder — it appears in neither the index
metadata (hence neither the table nor the keyword aggregation, which are
computed from it) — no error is raised (the builder is total), and the
record directory itself is left in place. -/
theorem claim_C10_missing_summary (recs : List Rec) (r : Rec)
    (hnd : (recNames recs).Nodup) (hr : r ∈ recs) (hsum : r.summary = none) :
    r.name ∉ (getActiveMemoriesIdx recs).map (fun meta => meta.id) ∧
      getActiveMemoriesIdx recs =
        getActiveMemoriesIdx (recs.filter (fun x => !(x.name == r.name))) ∧
      (∀ s : BuilderState, (runBuilder s).recs = s.recs) := by
  have hkey : ∀ x ∈ recs, x.name = r.name → x.summary = none := by
    intro x hx hxname
    have : x = r := mem_eq_of_name_eq hnd hx hr hxname
    rw [this, hsum]
  refine ⟨?_, ?_, fun _ => rfl⟩
  · intro hin
    obtain ⟨meta, hmeta, hmetaid⟩ := List.mem_map.mp hin
    unfold getActiveMemoriesIdx at hmeta
    have hmeta2 := (List.perm_insertionSort
      (fun a b : MemMeta => strLe b.id a.id = true) _).mem_iff.mp hmeta
    obtain ⟨x, hx, hfx⟩ := List.mem_filterMap.mp hmeta2
    obtain ⟨ls, hls, hmeta3⟩ := Option.map_eq_some'.mp hfx
    have hxname : x.name = r.name := by
      rw [← hmetaid, ← hmeta3]
    have : x.summary = none := hkey x (List.mem_filter.mp hx).1 hxname
    rw [this] at hls
    exact Option.noConfusion hls
  · unfold getActiveMemoriesIdx
    dsimp only
    have hcomm : memFilter (recs.filter (fun x => !(x.name == r.name))) =
        (memFilter recs).filter (fun x => !(x.name == r.name)) := by
      unfold memFilter
      rw [List.filter_comm]
    rw [hcomm]
    congr 1
    apply filterMap_drop_name
    intro x hx hxname
    rw [hkey x (List.mem_filter.mp hx).1 hxname]
    rfl

/-- Witness for C10 at a one-record store with a missing summary. -/
theorem claim_C10_witness :
    ("mem-20260101-000000".data ∉
        (getActiveMemoriesIdx [⟨"mem-20260101-000000".data, 0, none, none⟩]).map
          (fun meta => meta.id)) ∧
      (∀ s : BuilderState, (runBuilder s).recs = s.recs) :=
  ⟨((claim_C10_missing_summary [⟨"mem-20260101-000000".data, 0, none, none⟩]
      ⟨"mem-20260101-000000".data, 0, none, none⟩ (by decide) (by decide) rfl).1),
    (claim_C10_missing_summary [⟨"mem-20260101-000000".data, 0, none, none⟩]
      ⟨"mem-20260101-000000".data, 0, none, none⟩ (by decide) (by decide) rfl).2.2⟩
